import Mathlib

/-!
Shallow embedding of the sider collection views, translated from
src/sider/set.py and src/sider/sortedset.py.

Keys and sessions are modelled as identifiers.  A codec family maps a
codec index (the identity of a value_type object) to an encode and a
decode function; two views have equal value_type exactly when their
codec indices agree.  The remote store is a function from session and
key to the stored byte-string members (a finite set for plain sets, a
partial score map for sorted sets).  Gateway commands that the views
issue inside a transaction are recorded as explicit command values.
-/

deriving instance DecidableEq for Except

namespace Sider

abbrev Key := Nat

abbrev Sess := Nat

/-- A family of element codecs indexed by codec identity.  The codec
contract (spec section 3): encode turns a value into a byte string and
fails on incompatible input, decode turns a byte string back into a
value. -/
structure CodecFam (V B : Type) where
  encode : Nat → V → Option B
  decode : Nat → B → V

/-- A Set view: the (session, key, value_type) triple of sider.set.Set. -/
structure SetView where
  sess : Sess
  key : Key
  vt : Nat
deriving DecidableEq

/-- Remote plain-set state: members stored under each session and key. -/
abbrev SStore (B : Type) := Sess → Key → Finset B

section SetOps

variable {V B : Type} [DecidableEq V] [DecidableEq B]

/-- Set.__iter__: fetch all members of the key and decode each one. -/
def setIter (C : CodecFam V B) (st : SStore B) (w : SetView) : Finset V :=
  (st w.sess w.key).image (C.decode w.vt)

/-- An operand passed to a Set algebra method: either another Set view
or an arbitrary materialized iterable of values. -/
inductive SOperand (V : Type) where
  | view : SetView → SOperand V
  | plain : Finset V → SOperand V

/-- The elements an operand yields when iterated: a view decodes its
own remote members with its own codec. -/
def opElems (C : CodecFam V B) (st : SStore B) : SOperand V → Finset V
  | .view w => setIter C st w
  | .plain xs => xs

/-- Set.__contains__: encode the member, returning False when encoding
raises, otherwise bool(sismember). -/
def Set_contains (C : CodecFam V B) (st : SStore B) (A : SetView) (v : V) : Bool :=
  match C.encode A.vt v with
  | none => false
  | some d => decide (d ∈ st A.sess A.key)

/-- An operand passed to Set.__eq__, distinguishing the kinds that the
isinstance(operand, collections.Set) test separates: another Set view,
a native set of values, and an iterable that is not a collections.Set
(a list, for example). -/
inductive EqOperand (V : Type) where
  | view : SetView → EqOperand V
  | pyset : Finset V → EqOperand V
  | iter : List V → EqOperand V

/-- Set.__eq__: a collections.Set operand is compared as
frozenset(self) == frozenset(operand); any other operand compares
unequal. -/
def Set_eq (C : CodecFam V B) (st : SStore B) (A : SetView) : EqOperand V → Bool
  | .view w => decide (setIter C st A = setIter C st w)
  | .pyset xs => decide (setIter C st A = xs)
  | .iter _ => false

/-- The fully materialized elements of an operand of Set.__eq__. -/
def eqElems (C : CodecFam V B) (st : SStore B) : EqOperand V → Finset V
  | .view w => setIter C st w
  | .pyset xs => xs
  | .iter xs => xs.toFinset

/-- Set.difference: a same-session view with equal value_type delegates
to one SDIFF and decodes; a same-session view with a different
value_type returns set(self); anything else is the generic local
difference of the materialized sides. -/
def Set_difference (C : CodecFam V B) (st : SStore B) (A : SetView)
    (operand : SOperand V) : Finset V :=
  match operand with
  | .view w =>
    if A.sess = w.sess then
      if A.vt = w.vt then
        ((st A.sess A.key) \ (st A.sess w.key)).image (C.decode A.vt)
      else setIter C st A
    else setIter C st A \ setIter C st w
  | .plain xs => setIter C st A \ xs

/-- Set.union helper: online_sets.setdefault(value_type, []).append(s),
an association list keyed by codec identity. -/
def addToGroup (groups : List (Nat × List SetView)) (vt : Nat) (w : SetView) :
    List (Nat × List SetView) :=
  match groups with
  | [] => [(vt, [w])]
  | (t, ws) :: rest =>
    if t = vt then (t, ws ++ [w]) :: rest else (t, ws) :: addToGroup rest vt w

/-- Set.union partitioning loop: same-session views are grouped by
value_type starting from the group of self, all other operands are
collected as offline sets. -/
def unionSplit (A : SetView) (sets : List (SOperand V)) :
    List (Nat × List SetView) × List (SOperand V) :=
  sets.foldl
    (fun (acc : List (Nat × List SetView) × List (SOperand V)) op =>
      match op with
      | .view w =>
        if A.sess = w.sess then (addToGroup acc.1 w.vt w, acc.2)
        else (acc.1, acc.2 ++ [op])
      | .plain _ => (acc.1, acc.2 ++ [op]))
    ([(A.vt, [A])], [])

/-- SUNION over the keys of one codec group, issued on the session of
self. -/
def sunionKeys (st : SStore B) (s : Sess) (ws : List SetView) : Finset B :=
  ws.foldl (fun acc w => acc ∪ st s w.key) ∅

/-- Set.union: one SUNION per codec group decoded with the codec of the
group, folded together with every offline operand. -/
def Set_union (C : CodecFam V B) (st : SStore B) (A : SetView)
    (sets : List (SOperand V)) : Finset V :=
  let split := unionSplit A sets
  let onlinePart := split.1.foldl
    (fun acc g => acc ∪ (sunionKeys st A.sess g.2).image (C.decode g.1)) ∅
  split.2.foldl (fun acc op => acc ∪ opElems C st op) onlinePart

/-- A read command a Set algebra method issues against the gateway. -/
inductive SCmd where
  | sinter : Key → Finset Key → SCmd
deriving DecidableEq

/-- Set.intersection partitioning loop: a same-session view with a
different value_type makes the whole call return the empty set at
once (modelled as none); otherwise same-session views are collected
online and everything else offline, in order. -/
def interSplit (A : SetView) : List (SOperand V) →
    Option (List SetView × List (SOperand V))
  | [] => some ([], [])
  | op :: rest =>
    match op with
    | .view w =>
      if A.sess = w.sess then
        if A.vt = w.vt then
          (interSplit A rest).map (fun p => (w :: p.1, p.2))
        else none
      else (interSplit A rest).map (fun p => (p.1, SOperand.view w :: p.2))
    | .plain xs => (interSplit A rest).map (fun p => (p.1, SOperand.plain xs :: p.2))

/-- The same-session view operands of an intersection call, in operand
order. -/
def ssViews (A : SetView) (sets : List (SOperand V)) : List SetView :=
  sets.filterMap fun op =>
    match op with
    | .view w => if A.sess = w.sess then some w else none
    | .plain _ => none

/-- The operands of an intersection call that are not same-session
views, in operand order. -/
def offlineOps (A : SetView) (sets : List (SOperand V)) : List (SOperand V) :=
  sets.filter fun op =>
    match op with
    | .view w => decide (¬ A.sess = w.sess)
    | .plain _ => true

/-- Left fold of intersections over a list of keys, starting from the
members of the first SINTER argument. -/
def interList (st : SStore B) (s : Sess) : Finset B → List Key → Finset B
  | base, [] => base
  | base, k :: ks => interList st s (base ∩ st s k) ks

/-- SINTER over self.key and a frozenset of further keys (the iteration
order of the frozenset is irrelevant since intersection commutes; we
iterate in sorted order). -/
def sinterSem (st : SStore B) (s : Sess) (k : Key) (ks : Finset Key) : Finset B :=
  interList st s (st s k) (ks.sort (fun a b => a ≤ b))

/-- Set.intersection offline reduction: base = set(offline[0]) then
base.intersection_update(online, *offline[1:]). -/
def interReduce (C : CodecFam V B) (st : SStore B) (online : Finset V)
    (offline : List (SOperand V)) : Finset V :=
  match offline with
  | [] => online
  | base :: rest =>
    rest.foldl (fun acc op => acc ∩ opElems C st op) (opElems C st base ∩ online)

/-- Set.intersection, returning the result together with the list of
SINTER commands issued.  A value_type mismatch among same-session
views short-circuits to the empty set with no command; a non-empty
online key set issues exactly one SINTER; an empty one falls back to
iterating self. -/
def Set_intersection (C : CodecFam V B) (st : SStore B) (A : SetView)
    (sets : List (SOperand V)) : Finset V × List SCmd :=
  match interSplit A sets with
  | none => (∅, [])
  | some p =>
    let keys : Finset Key := (p.1.map SetView.key).toFinset
    if keys = ∅ then
      (interReduce C st (setIter C st A) p.2, [])
    else
      (interReduce C st ((sinterSem st A.sess A.key keys).image (C.decode A.vt)) p.2,
       [SCmd.sinter A.key keys])

/-- A value passed as an argument of a buffered pipeline command: either
an original member object or a codec-encoded byte string. -/
inductive Datum (V B : Type) where
  | raw : V → Datum V B
  | enc : B → Datum V B
deriving DecidableEq

/-- A mutating command buffered on the pipeline by Set._raw_update. -/
inductive PipeCmd (V B : Type) where
  | sadd : Key → List (Datum V B) → PipeCmd V B
  | sunionstore : Key → Key → Key → PipeCmd V B
deriving DecidableEq

/-- The members argument of Set._raw_update: a view or a plain
collection of values, kept as a list because command order matters. -/
inductive UpdOp (V : Type) where
  | view : SetView → UpdOp V
  | plain : List V → UpdOp V

/-- Lexicographic comparison of server version tuples, the test
server_version_info < (2, 4, 0). -/
def verLt (a b : Nat × Nat × Nat) : Bool :=
  decide (a.1 < b.1) ||
    (decide (a.1 = b.1) &&
      (decide (a.2.1 < b.2.1) || (decide (a.2.1 = b.2.1) && decide (a.2.2 < b.2.2))))

/-- The loop for member in data: pipe.sadd(key, member) over the lazily
encoded members; the first encoding failure raises. -/
def saddLoop (C : CodecFam V B) (vt : Nat) (k : Key) :
    List V → Except Unit (List (PipeCmd V B))
  | [] => .ok []
  | v :: rest =>
    match C.encode vt v with
    | none => .error ()
    | some b =>
      match saddLoop C vt k rest with
      | .error u => .error u
      | .ok cs => .ok (PipeCmd.sadd k [Datum.enc b] :: cs)

/-- The elements the members argument yields when iterated (the store
returns members in an arbitrary order; we fix the sorted one). -/
def updElems [LinearOrder B] (C : CodecFam V B) (st : SStore B) : UpdOp V → List V
  | .view w => ((st w.sess w.key).sort (fun a b => a ≤ b)).map (C.decode w.vt)
  | .plain xs => xs

/-- The add branch of Set._raw_update: below version (2, 4, 0) one
single-value SADD per encoded member, otherwise one multi-value SADD
whose arguments are the original members (the encoded generator data is
never consumed on this branch). -/
def rawAddPath (C : CodecFam V B) (A : SetView) (xs : List V)
    (ver : Nat × Nat × Nat) : Except Unit (List (PipeCmd V B)) :=
  if verLt ver (2, 4, 0) then saddLoop C A.vt A.key xs
  else .ok [PipeCmd.sadd A.key (xs.map Datum.raw)]

/-- Set._raw_update: a same-session view with equal value_type becomes
one SUNIONSTORE; any other members argument goes through the
version-gated add branch over its iterated elements. -/
def Set_rawUpdate [LinearOrder B] (C : CodecFam V B) (st : SStore B) (A : SetView)
    (members : UpdOp V) (ver : Nat × Nat × Nat) : Except Unit (List (PipeCmd V B)) :=
  match members with
  | .view w =>
    if A.sess = w.sess ∧ A.vt = w.vt then
      .ok [PipeCmd.sunionstore A.key w.key A.key]
    else rawAddPath C A (updElems C st (UpdOp.view w)) ver
  | .plain xs => rawAddPath C A xs ver

end SetOps

section SortedSetOps

variable {V B : Type} [DecidableEq V] [DecidableEq B]

/-- A SortedSet view: the (session, key, value_type) triple of
sider.sortedset.SortedSet. -/
structure ZView where
  sess : Sess
  key : Key
  vt : Nat
deriving DecidableEq

/-- Remote sorted-set state: the partial score map stored under each
session and key.  Scores are modelled as rationals. -/
abbrev ZStore (B : Type) := Sess → Key → B → Option ℚ

/-- Python truthiness of the return value of ZSCORE: None and a score
of 0 are falsy, any other score is truthy. -/
def pyBoolOpt (r : Option ℚ) : Bool :=
  match r with
  | none => false
  | some s => decide (s ≠ 0)

/-- SortedSet.__contains__: encode the member, returning False when
encoding raises, otherwise bool(zscore(key, element)). -/
def SortedSet_contains (C : CodecFam V B) (st : ZStore B) (A : ZView) (v : V) : Bool :=
  match C.encode A.vt v with
  | none => false
  | some e => pyBoolOpt (st A.sess A.key e)

/-- A score value supplied to SortedSet.update: an integer, a float, or
a value that is not a number at all. -/
inductive PyScore where
  | int : ℤ → PyScore
  | float : ℚ → PyScore
  | nonnum : PyScore
deriving DecidableEq

/-- isinstance(score, numbers.Real). -/
def PyScore.isReal : PyScore → Bool
  | .int _ => true
  | .float _ => true
  | .nonnum => false

/-- isinstance(score, numbers.Integral). -/
def PyScore.isIntegral : PyScore → Bool
  | .int _ => true
  | _ => false

/-- The numeric amount a score value denotes. -/
def PyScore.val : PyScore → ℚ
  | .int n => (n : ℚ)
  | .float q => q
  | .nonnum => 0

/-- An operand passed to SortedSet.update: a SortedSet instance, a
mapping of elements to scores, or some other iterable of elements. -/
inductive ZOperand (V : Type) where
  | sorted : ZView → ZOperand V
  | mapping : List (V × PyScore) → ZOperand V
  | iter : List V → ZOperand V

/-- A command buffered inside the SortedSet.update transaction block. -/
inductive ZCmd (B : Type) where
  | zincrby : Key → B → ℚ → ZCmd B
  | zunionstore : Key → Nat → List Key → ZCmd B
deriving DecidableEq

/-- The mapping branch of the update loop: encode the element first,
then require the score to be a numbers.Real, then buffer one ZINCRBY. -/
def runMapping (enc : V → Option B) (k : Key) :
    List (V × PyScore) → Except Unit (List (ZCmd B))
  | [] => .ok []
  | p :: rest =>
    match enc p.1 with
    | none => .error ()
    | some e =>
      if p.2.isReal then
        match runMapping enc k rest with
        | .error u => .error u
        | .ok cs => .ok (ZCmd.zincrby k e p.2.val :: cs)
      else .error ()

/-- The plain-iterable branch of the update loop: one ZINCRBY with
amount 1 per encoded element. -/
def runIter (enc : V → Option B) (k : Key) :
    List V → Except Unit (List (ZCmd B))
  | [] => .ok []
  | v :: rest =>
    match enc v with
    | none => .error ()
    | some e =>
      match runIter enc k rest with
      | .error u => .error u
      | .ok cs => .ok (ZCmd.zincrby k e 1 :: cs)

/-- The keywords loop of update: require each score to be a
numbers.Integral before encoding, then buffer one ZINCRBY. -/
def runKeywords (enc : V → Option B) (k : Key) :
    List (V × PyScore) → Except Unit (List (ZCmd B))
  | [] => .ok []
  | p :: rest =>
    if p.2.isIntegral then
      match enc p.1 with
      | none => .error ()
      | some e =>
        match runKeywords enc k rest with
        | .error u => .error u
        | .ok cs => .ok (ZCmd.zincrby k e p.2.val :: cs)
    else .error ()

/-- The loop over positional operands of update: a SortedSet instance
is only appended to online_sets, the other operand kinds buffer their
per-element ZINCRBY commands in order. -/
def runSets (enc : V → Option B) (k : Key) :
    List (ZOperand V) → Except Unit (List (ZCmd B) × List Key)
  | [] => .ok ([], [])
  | op :: rest =>
    match op with
    | .sorted w =>
      match runSets enc k rest with
      | .error u => .error u
      | .ok p => .ok (p.1, w.key :: p.2)
    | .mapping ps =>
      match runMapping enc k ps with
      | .error u => .error u
      | .ok cs =>
        match runSets enc k rest with
        | .error u => .error u
        | .ok p => .ok (cs ++ p.1, p.2)
    | .iter xs =>
      match runIter enc k xs with
      | .error u => .error u
      | .ok cs =>
        match runSets enc k rest with
        | .error u => .error u
        | .ok p => .ok (cs ++ p.1, p.2)

/-- Modelled from the spec: the transaction record the coordinator
(sider.session / sider.transaction, not part of the sources here)
accumulates for one block per section 4.1 of the spec: the keys the
block registered as watched or manipulative, and the buffered
commands that commit applies atomically. -/
structure ZTxn (B : Type) where
  registered : List Key
  cmds : List (ZCmd B)
deriving DecidableEq

/-- SortedSet.update: run the block, which marks [self.key]
manipulative, buffers the per-operand and per-keyword ZINCRBY
commands, and ends with one ZUNIONSTORE over self.key and the keys of
all SortedSet operands when there are any; the block is handed to
session.transaction together with the watch list [self.key]. -/
def SortedSet_update (C : CodecFam V B) (A : ZView) (sets : List (ZOperand V))
    (keywords : List (V × PyScore)) : Except Unit (ZTxn B) :=
  match runSets (C.encode A.vt) A.key sets with
  | .error u => .error u
  | .ok p =>
    match runKeywords (C.encode A.vt) A.key keywords with
    | .error u => .error u
    | .ok kcs =>
      .ok ⟨[A.key],
        p.1 ++ kcs ++
          (if p.2.isEmpty then []
           else [ZCmd.zunionstore A.key (p.2.length + 1) (A.key :: p.2)])⟩

/-- Modelled from the spec: the gateway semantics of the two buffered
commands per section 6 — incrementScore adds the amount to the score
of the value, creating it at that amount when absent; unionScoresInto
merges the listed scored sets into the destination, adding scores on
collision. -/
def applyZCmd (s : Sess) (st : ZStore B) : ZCmd B → ZStore B
  | .zincrby k e amt => fun s2 k2 e2 =>
      if s2 = s ∧ k2 = k ∧ e2 = e then some ((st s k e).getD 0 + amt)
      else st s2 k2 e2
  | .zunionstore dest _ keys => fun s2 k2 e2 =>
      if s2 = s ∧ k2 = dest then
        keys.foldl
          (fun acc k3 =>
            match acc, st s k3 e2 with
            | none, x => x
            | some q, none => some q
            | some q, some r => some (q + r))
          none
      else st s2 k2 e2

/-- Modelled from the spec: committing a transaction applies every
buffered command atomically and in order (section 4.1 step 4). -/
def applyTxn (s : Sess) (st : ZStore B) (t : ZTxn B) : ZStore B :=
  t.cmds.foldl (applyZCmd s) st

/-- The keys of the SortedSet operands of an update call, in operand
order: exactly the keys the final ZUNIONSTORE receives. -/
def onlineKeysOf : List (ZOperand V) → List Key
  | [] => []
  | .sorted w :: rest => w.key :: onlineKeysOf rest
  | .mapping _ :: rest => onlineKeysOf rest
  | .iter _ :: rest => onlineKeysOf rest

/-- Whether a buffered command is a ZINCRBY. -/
def isIncr : ZCmd B → Bool
  | .zincrby _ _ _ => true
  | .zunionstore _ _ _ => false

/-- The number of ZINCRBY commands in a buffer. -/
def incrCount (cs : List (ZCmd B)) : Nat :=
  (cs.filter fun c => isIncr c).length

/-- The number of elements the non-SortedSet operands of an update call
supply (a SortedSet operand supplies none: it is merged by key). -/
def elemCount : List (ZOperand V) → Nat
  | [] => 0
  | .sorted _ :: rest => elemCount rest
  | .mapping ps :: rest => ps.length + elemCount rest
  | .iter xs :: rest => xs.length + elemCount rest

/-- Whether an update call failed with a type error. -/
def isErr {α : Type} (r : Except Unit α) : Bool :=
  match r with
  | .error _ => true
  | .ok _ => false

/-- Whether some mapping operand supplies a score that is not a
numbers.Real. -/
def opsBadScore : List (ZOperand V) → Bool
  | [] => false
  | .sorted _ :: rest => opsBadScore rest
  | .mapping ps :: rest => (ps.any fun p => !p.2.isReal) || opsBadScore rest
  | .iter _ :: rest => opsBadScore rest

/-- Whether some keyword supplies a score that is not a
numbers.Integral. -/
def kwBadScore (kw : List (V × PyScore)) : Bool :=
  kw.any fun p => !p.2.isIntegral

end SortedSetOps

section ConcreteInstances

/-- The identity codec over natural values and byte strings, total on
every value. -/
def natCodec : CodecFam Nat Nat := ⟨fun _ v => some v, fun _ b => b⟩

/-- A codec that shifts on encode, so that the encoded form of a member
differs from the member itself. -/
def encShift : CodecFam Nat Nat := ⟨fun _ v => some (v + 100), fun _ b => b - 100⟩

/-- A codec that rejects the value 0 and encodes every other value as
itself. -/
def optCodec : CodecFam Nat Nat := ⟨fun _ v => if v = 0 then none else some v, fun _ b => b⟩

/-- A concrete plain-set store: key 0 holds the encodings of 1 and 2,
key 1 holds the encodings of 2 and 3. -/
def st0 : SStore Nat := fun _ k => if k = 0 then {1, 2} else if k = 1 then {2, 3} else ∅

/-- A Set view on session 0, key 0, codec 0. -/
def A0 : SetView := ⟨0, 0, 0⟩

/-- A Set view on session 0, key 1, codec 0. -/
def B0 : SetView := ⟨0, 1, 0⟩

/-- A Set view on the same session as A0 but with a different codec. -/
def Bmis : SetView := ⟨0, 1, 7⟩

/-- A SortedSet view on session 0, key 0, codec 0. -/
def Z0 : ZView := ⟨0, 0, 0⟩

/-- A SortedSet view on a different session and key than Z0. -/
def W1 : ZView := ⟨1, 2, 0⟩

/-- A SortedSet view on the same session as Z0 but another key. -/
def W2 : ZView := ⟨0, 2, 0⟩

/-- A sorted-set store where the element 5 of key 0 has the assigned
score 0 and everything else is absent. -/
def zstZero : ZStore Nat := fun s k e => if s = 0 ∧ k = 0 ∧ e = 5 then some 0 else none

/-- A sorted-set store where key 0 maps element 10 to score 2 and
element 11 to score 3. -/
def zstAB : ZStore Nat := fun s k e =>
  if s = 0 ∧ k = 0 ∧ e = 10 then some 2
  else if s = 0 ∧ k = 0 ∧ e = 11 then some 3
  else none

/-- A single different-session SortedSet operand for update. -/
def sets10 : List (ZOperand Nat) := [ZOperand.sorted W1]

/-- A single same-session SortedSet operand for update. -/
def setsW2 : List (ZOperand Nat) := [ZOperand.sorted W2]

/-- The transaction record SortedSet.update produces for one SortedSet
operand with key 2 against a view with key 0. -/
def txn10 : ZTxn Nat := ⟨[0], [ZCmd.zunionstore 0 2 [0, 2]]⟩

end ConcreteInstances

section SetTheorems

variable {V B : Type} [DecidableEq V] [DecidableEq B]

lemma image_sdiff_of_encoded (dec : B → V) (enc : V → Option B) (s t : Finset B)
    (hinv : ∀ v b, enc v = some b → dec b = v)
    (hs : ∀ b ∈ s, ∃ v, enc v = some b) (ht : ∀ b ∈ t, ∃ v, enc v = some b) :
    (s \ t).image dec = s.image dec \ t.image dec := by
  ext x
  simp only [Finset.mem_image, Finset.mem_sdiff]
  constructor
  · rintro ⟨b, ⟨hbs, hbt⟩, rfl⟩
    refine ⟨⟨b, hbs, rfl⟩, ?_⟩
    rintro ⟨b2, hb2t, hdec⟩
    obtain ⟨v1, hv1⟩ := hs b hbs
    obtain ⟨v2, hv2⟩ := ht b2 hb2t
    have h1 := hinv v1 b hv1
    have h2 := hinv v2 b2 hv2
    have hv : v2 = v1 := by rw [← h1, ← h2, hdec]
    rw [hv, hv1] at hv2
    cases hv2
    exact hbt hb2t
  · rintro ⟨⟨b, hbs, rfl⟩, hnot⟩
    exact ⟨b, ⟨hbs, fun hbt => hnot ⟨b, hbt, rfl⟩⟩, rfl⟩

lemma image_inter_of_encoded (dec : B → V) (enc : V → Option B) (s t : Finset B)
    (hinv : ∀ v b, enc v = some b → dec b = v)
    (hs : ∀ b ∈ s, ∃ v, enc v = some b) (ht : ∀ b ∈ t, ∃ v, enc v = some b) :
    (s ∩ t).image dec = s.image dec ∩ t.image dec := by
  ext x
  simp only [Finset.mem_image, Finset.mem_inter]
  constructor
  · rintro ⟨b, ⟨hbs, hbt⟩, rfl⟩
    exact ⟨⟨b, hbs, rfl⟩, ⟨b, hbt, rfl⟩⟩
  · rintro ⟨⟨b, hbs, rfl⟩, ⟨b2, hb2t, hdec⟩⟩
    obtain ⟨v1, hv1⟩ := hs b hbs
    obtain ⟨v2, hv2⟩ := ht b2 hb2t
    have h1 := hinv v1 b hv1
    have h2 := hinv v2 b2 hv2
    have hv : v2 = v1 := by rw [← h1, ← h2, hdec]
    rw [hv, hv1] at hv2
    cases hv2
    exact ⟨b, ⟨hbs, hb2t⟩, rfl⟩

/-- C1: for two Set views on the same Session with equal value_type
codecs, over a store whose members under both keys are codec encodings
and a codec whose decode is a left inverse of encode, difference, union
and intersection as computed by the code (the remote-delegated SDIFF,
SUNION, SINTER path followed by decoding) equal the generic set
difference, union and intersection of the two locally materialized
member sets. -/
theorem set_algebra_remote_local_agree (C : CodecFam V B) (st : SStore B)
    (A Bv : SetView) (hsess : A.sess = Bv.sess) (hvt : A.vt = Bv.vt)
    (hinv : ∀ v b, C.encode A.vt v = some b → C.decode A.vt b = v)
    (hwfA : ∀ b ∈ st A.sess A.key, ∃ v, C.encode A.vt v = some b)
    (hwfB : ∀ b ∈ st A.sess Bv.key, ∃ v, C.encode A.vt v = some b) :
    Set_difference C st A (SOperand.view Bv) = setIter C st A \ setIter C st Bv ∧
    Set_union C st A [SOperand.view Bv] = setIter C st A ∪ setIter C st Bv ∧
    (Set_intersection C st A [SOperand.view Bv]).1 = setIter C st A ∩ setIter C st Bv := by
  have hdec : setIter C st Bv = (st A.sess Bv.key).image (C.decode A.vt) := by
    rw [setIter, ← hsess, ← hvt]
  refine ⟨?_, ?_, ?_⟩
  · rw [Set_difference, if_pos hsess, if_pos hvt, hdec, setIter,
      image_sdiff_of_encoded (C.decode A.vt) (C.encode A.vt) _ _ hinv hwfA hwfB]
  · rw [Set_union, unionSplit]
    simp only [List.foldl_cons, List.foldl_nil]
    rw [if_pos hsess, addToGroup, if_pos hvt]
    simp only [sunionKeys, List.cons_append, List.nil_append, List.foldl_cons,
      List.foldl_nil, Finset.empty_union]
    rw [setIter, hdec, Finset.image_union]
  · rw [Set_intersection, interSplit, if_pos hsess, if_pos hvt, interSplit]
    simp only [Option.map_some']
    have hkeys : ((([Bv], ([] : List (SOperand V))) : List SetView × List (SOperand V)).1.map
        SetView.key).toFinset = {Bv.key} := by
      simp
    rw [hkeys]
    have hne : ¬ ({Bv.key} : Finset Key) = ∅ := by
      simp
    rw [if_neg hne]
    simp only [interReduce]
    rw [sinterSem, Finset.sort_singleton, interList, interList, setIter, hdec,
      image_inter_of_encoded (C.decode A.vt) (C.encode A.vt) _ _ hinv hwfA hwfB]

/-- Witness for C1 at a concrete store: A holds encodings of 1 and 2, B
holds encodings of 2 and 3. -/
theorem set_algebra_remote_local_agree_witness :
    Set_difference natCodec st0 A0 (SOperand.view B0) =
      setIter natCodec st0 A0 \ setIter natCodec st0 B0 ∧
    Set_union natCodec st0 A0 [SOperand.view B0] =
      setIter natCodec st0 A0 ∪ setIter natCodec st0 B0 ∧
    (Set_intersection natCodec st0 A0 [SOperand.view B0]).1 =
      setIter natCodec st0 A0 ∩ setIter natCodec st0 B0 :=
  set_algebra_remote_local_agree natCodec st0 A0 B0 rfl rfl
    (fun v b h => by cases h; rfl)
    (fun b hb => ⟨b, rfl⟩)
    (fun b hb => ⟨b, rfl⟩)

lemma ssViews_cons_view (A w : SetView) (rest : List (SOperand V)) :
    ssViews A (SOperand.view w :: rest) =
      if A.sess = w.sess then w :: ssViews A rest else ssViews A rest := by
  by_cases hs : A.sess = w.sess <;> simp [ssViews, List.filterMap_cons, hs]

lemma ssViews_cons_plain (A : SetView) (xs : Finset V) (rest : List (SOperand V)) :
    ssViews A (SOperand.plain xs :: rest) = ssViews A rest := by
  simp [ssViews, List.filterMap_cons]

lemma offlineOps_cons_view (A w : SetView) (rest : List (SOperand V)) :
    offlineOps A (SOperand.view w :: rest) =
      if A.sess = w.sess then offlineOps A rest
      else SOperand.view w :: offlineOps A rest := by
  by_cases hs : A.sess = w.sess <;> simp [offlineOps, List.filter_cons, hs]

lemma offlineOps_cons_plain (A : SetView) (xs : Finset V) (rest : List (SOperand V)) :
    offlineOps A (SOperand.plain xs :: rest) = SOperand.plain xs :: offlineOps A rest := by
  simp [offlineOps, List.filter_cons]

lemma interSplit_none_of_mismatch (A : SetView) (sets : List (SOperand V)) (w : SetView)
    (hw : SOperand.view w ∈ sets) (hs : A.sess = w.sess) (hv : ¬ A.vt = w.vt) :
    interSplit A sets = none := by
  induction sets with
  | nil => cases hw
  | cons op rest ih =>
    rcases List.mem_cons.mp hw with h1 | h2
    · subst h1
      rw [interSplit, if_pos hs, if_neg hv]
    · cases op with
      | view w2 =>
        rw [interSplit]
        by_cases hs2 : A.sess = w2.sess
        · rw [if_pos hs2]
          by_cases hv2 : A.vt = w2.vt
          · rw [if_pos hv2, ih h2]
            rfl
          · rw [if_neg hv2]
        · rw [if_neg hs2, ih h2]
          rfl
      | plain xs =>
        rw [interSplit, ih h2]
        rfl

lemma interSplit_eq_of_matched (A : SetView) (sets : List (SOperand V))
    (h : ∀ w ∈ ssViews A sets, A.vt = w.vt) :
    interSplit A sets = some (ssViews A sets, offlineOps A sets) := by
  induction sets with
  | nil => rfl
  | cons op rest ih =>
    cases op with
    | view w =>
      by_cases hs : A.sess = w.sess
      · have hmem : w ∈ ssViews A (SOperand.view w :: rest) := by
          rw [ssViews_cons_view, if_pos hs]
          exact List.mem_cons_self w _
        have hv : A.vt = w.vt := h w hmem
        have hrest : ∀ w2 ∈ ssViews A rest, A.vt = w2.vt := by
          intro w2 hw2
          refine h w2 ?_
          rw [ssViews_cons_view, if_pos hs]
          exact List.mem_cons_of_mem _ hw2
        rw [interSplit, if_pos hs, if_pos hv, ih hrest, ssViews_cons_view, if_pos hs,
          offlineOps_cons_view, if_pos hs]
        rfl
      · have hrest : ∀ w2 ∈ ssViews A rest, A.vt = w2.vt := by
          intro w2 hw2
          refine h w2 ?_
          rw [ssViews_cons_view, if_neg hs]
          exact hw2
        rw [interSplit, if_neg hs, ih hrest, ssViews_cons_view, if_neg hs,
          offlineOps_cons_view, if_neg hs]
        rfl
    | plain xs =>
      have hrest : ∀ w2 ∈ ssViews A rest, A.vt = w2.vt := by
        intro w2 hw2
        refine h w2 ?_
        rw [ssViews_cons_plain]
        exact hw2
      rw [interSplit, ih hrest, ssViews_cons_plain, offlineOps_cons_plain]
      rfl

lemma mem_foldl_inter (C : CodecFam V B) (st : SStore B) (rest : List (SOperand V))
    (acc : Finset V) (v : V) :
    v ∈ rest.foldl (fun a op => a ∩ opElems C st op) acc ↔
      v ∈ acc ∧ ∀ op ∈ rest, v ∈ opElems C st op := by
  induction rest generalizing acc with
  | nil => simp
  | cons op rest ih =>
    rw [List.foldl_cons, ih]
    simp only [Finset.mem_inter, List.mem_cons, and_assoc]
    constructor
    · rintro ⟨h1, h2, h3⟩
      exact ⟨h1, fun op2 hop2 => by
        rcases hop2 with h | h
        · rw [h]; exact h2
        · exact h3 op2 h⟩
    · rintro ⟨h1, h2⟩
      exact ⟨h1, h2 op (Or.inl rfl), fun op2 hop2 => h2 op2 (Or.inr hop2)⟩

lemma mem_interReduce (C : CodecFam V B) (st : SStore B) (online : Finset V)
    (offline : List (SOperand V)) (v : V) :
    v ∈ interReduce C st online offline ↔
      v ∈ online ∧ ∀ op ∈ offline, v ∈ opElems C st op := by
  cases offline with
  | nil => simp [interReduce]
  | cons base rest =>
    rw [interReduce, mem_foldl_inter]
    simp only [Finset.mem_inter, List.mem_cons]
    constructor
    · rintro ⟨⟨h1, h2⟩, h3⟩
      exact ⟨h2, fun op hop => by
        rcases hop with h | h
        · rw [h]; exact h1
        · exact h3 op h⟩
    · rintro ⟨h1, h2⟩
      exact ⟨⟨h2 base (Or.inl rfl), h1⟩, fun op hop => h2 op (Or.inr hop)⟩

lemma Set_intersection_of_split (C : CodecFam V B) (st : SStore B) (A : SetView)
    (sets : List (SOperand V)) (p : List SetView × List (SOperand V))
    (h : interSplit A sets = some p) (hk : ¬ (p.1.map SetView.key).toFinset = ∅) :
    Set_intersection C st A sets =
      (interReduce C st
        ((sinterSem st A.sess A.key (p.1.map SetView.key).toFinset).image (C.decode A.vt)) p.2,
       [SCmd.sinter A.key (p.1.map SetView.key).toFinset]) := by
  rw [Set_intersection, h]
  simp only [if_neg hk]

/-- C6: a same-session Set view operand with a value_type different
from that of self makes intersection return the empty set while
issuing no SINTER command, and when all same-session view operands
share the value_type of self (there being at least one) exactly one
SINTER over self.key and all their keys is issued and the result is
the decoded SINTER reply reduced by generic pairwise intersection with
the remaining operands. -/
theorem intersection_mismatch_and_delegation (C : CodecFam V B) (st : SStore B)
    (A : SetView) (sets : List (SOperand V)) :
    ((∃ w, SOperand.view w ∈ sets ∧ A.sess = w.sess ∧ ¬ A.vt = w.vt) →
       Set_intersection C st A sets = (∅, [])) ∧
    ((∀ w ∈ ssViews A sets, A.vt = w.vt) → ssViews A sets ≠ [] →
       (Set_intersection C st A sets).2 =
         [SCmd.sinter A.key ((ssViews A sets).map SetView.key).toFinset] ∧
       ∀ v, v ∈ (Set_intersection C st A sets).1 ↔
         (v ∈ (sinterSem st A.sess A.key ((ssViews A sets).map SetView.key).toFinset).image
             (C.decode A.vt) ∧
          ∀ op ∈ offlineOps A sets, v ∈ opElems C st op)) := by
  constructor
  · rintro ⟨w, hw, hs, hv⟩
    rw [Set_intersection, interSplit_none_of_mismatch A sets w hw hs hv]
  · intro hall hne
    have hk : ¬ ((ssViews A sets).map SetView.key).toFinset = ∅ := by
      rcases List.exists_mem_of_ne_nil _ hne with ⟨w, hw⟩
      intro hemp
      have : w.key ∈ ((ssViews A sets).map SetView.key).toFinset := by
        simp only [List.mem_toFinset, List.mem_map]
        exact ⟨w, hw, rfl⟩
      rw [hemp] at this
      cases this
    rw [Set_intersection_of_split C st A sets (ssViews A sets, offlineOps A sets)
      (interSplit_eq_of_matched A sets hall) hk]
    exact ⟨rfl, fun v => mem_interReduce C st _ _ v⟩

/-- Witness for C6: both branches at concrete operands — a mismatched
same-session view empties the intersection without a command, and a
matched one issues one SINTER over both keys. -/
theorem intersection_mismatch_and_delegation_witness :
    Set_intersection natCodec st0 A0 ([SOperand.view Bmis] : List (SOperand Nat)) = (∅, []) ∧
    (Set_intersection natCodec st0 A0 ([SOperand.view B0] : List (SOperand Nat))).2 =
      [SCmd.sinter A0.key ((ssViews A0 ([SOperand.view B0] : List (SOperand Nat))).map SetView.key).toFinset] ∧
    ((2 : Nat) ∈ (Set_intersection natCodec st0 A0 ([SOperand.view B0] : List (SOperand Nat))).1 ↔
      ((2 : Nat) ∈ (sinterSem st0 A0.sess A0.key
          ((ssViews A0 ([SOperand.view B0] : List (SOperand Nat))).map SetView.key).toFinset).image
          (natCodec.decode A0.vt) ∧
       ∀ op ∈ offlineOps A0 ([SOperand.view B0] : List (SOperand Nat)), (2 : Nat) ∈ opElems natCodec st0 op)) :=
  ⟨(intersection_mismatch_and_delegation natCodec st0 A0 ([SOperand.view Bmis] : List (SOperand Nat))).1
      ⟨Bmis, List.mem_cons_self _ _, rfl, by decide⟩,
   ((intersection_mismatch_and_delegation natCodec st0 A0 ([SOperand.view B0] : List (SOperand Nat))).2
      (by decide) (by decide)).1,
   ((intersection_mismatch_and_delegation natCodec st0 A0 ([SOperand.view B0] : List (SOperand Nat))).2
      (by decide) (by decide)).2 2⟩

/-- C2: at server versions at or above (2, 4, 0) the single multi-value
add command of Set._raw_update carries the original raw members, not
their codec encodings, while below (2, 4, 0) the per-member commands
carry the encoded forms; with a codec whose encoding differs from the
raw member the two version branches therefore add different values. -/
theorem raw_update_version_divergence :
    Set_rawUpdate encShift st0 A0 (UpdOp.plain [1]) (2, 3, 0) =
      Except.ok [PipeCmd.sadd A0.key [Datum.enc 101]] ∧
    Set_rawUpdate encShift st0 A0 (UpdOp.plain [1]) (2, 4, 0) =
      Except.ok [PipeCmd.sadd A0.key [Datum.raw 1]] ∧
    ([Datum.raw 1] : List (Datum Nat Nat)) ≠ [Datum.enc 101] := by
  refine ⟨by decide, by decide, by decide⟩

/-- C3: an element that is present in the sorted set with an assigned
score of 0 is reported as not contained, because the code coerces the
score returned by ZSCORE to a boolean and 0 is falsy. -/
theorem sortedset_contains_zero_score :
    zstZero Z0.sess Z0.key 5 = some 0 ∧
    SortedSet_contains natCodec zstZero Z0 5 = false := by
  refine ⟨by decide, by decide⟩

/-- C5: for a value the codec cannot encode, membership on both Set and
SortedSet views returns false without raising; for an encodable value
it returns the boolean coercion of the gateway reply, SISMEMBER for a
Set and the score returned by ZSCORE for a SortedSet. -/
theorem contains_encode_domain (C : CodecFam V B) (st : SStore B) (zst : ZStore B)
    (A : SetView) (Z : ZView) (v : V) :
    (C.encode A.vt v = none → Set_contains C st A v = false) ∧
    (∀ d, C.encode A.vt v = some d →
       Set_contains C st A v = decide (d ∈ st A.sess A.key)) ∧
    (C.encode Z.vt v = none → SortedSet_contains C zst Z v = false) ∧
    (∀ e, C.encode Z.vt v = some e →
       SortedSet_contains C zst Z v = pyBoolOpt (zst Z.sess Z.key e)) := by
  refine ⟨fun h => by rw [Set_contains, h], fun d h => by rw [Set_contains, h],
    fun h => by rw [SortedSet_contains, h], fun e h => by rw [SortedSet_contains, h]⟩

/-- Witness for C5: the codec optCodec rejects 0, so membership of 0 is
false on both views, while encodable values go through to the gateway
reply. -/
theorem contains_encode_domain_witness :
    Set_contains optCodec st0 A0 0 = false ∧
    SortedSet_contains optCodec zstZero Z0 0 = false ∧
    Set_contains optCodec st0 A0 1 = decide (1 ∈ st0 A0.sess A0.key) ∧
    SortedSet_contains optCodec zstZero Z0 5 = pyBoolOpt (zstZero Z0.sess Z0.key 5) :=
  ⟨(contains_encode_domain optCodec st0 zstZero A0 Z0 0).1 rfl,
   (contains_encode_domain optCodec st0 zstZero A0 Z0 0).2.2.1 rfl,
   (contains_encode_domain optCodec st0 zstZero A0 Z0 1).2.1 1 rfl,
   (contains_encode_domain optCodec st0 zstZero A0 Z0 5).2.2.2 5 rfl⟩

/-- C8 counterexample: a plain iterable operand that is not a
collections.Set materializes to the same element set as the view, yet
Set.__eq__ returns False for it, so equality is not determined by the
materialized sets alone. -/
theorem set_eq_iterable_counterexample :
    ¬ ((Set_eq natCodec st0 A0 (EqOperand.iter [1, 2]) = true) ↔
       setIter natCodec st0 A0 = eqElems natCodec st0 (EqOperand.iter [1, 2])) := by
  decide

/-- C8 amended: Set.__eq__ compares materialized member sets only for
operands that are collections.Set instances (views and native sets);
for any other iterable operand it returns False regardless of the
elements. -/
theorem set_eq_collections_set_only (C : CodecFam V B) (st : SStore B) (A : SetView) :
    (∀ w, (Set_eq C st A (EqOperand.view w) = true ↔ setIter C st A = setIter C st w)) ∧
    (∀ xs : Finset V, (Set_eq C st A (EqOperand.pyset xs) = true ↔ setIter C st A = xs)) ∧
    (∀ xs : List V, Set_eq C st A (EqOperand.iter xs) = false) := by
  refine ⟨fun w => ?_, fun xs => ?_, fun xs => rfl⟩
  · simp [Set_eq]
  · simp [Set_eq]

end SetTheorems

section SortedSetTheorems

variable {V B : Type} [DecidableEq V] [DecidableEq B]

lemma runMapping_ok (enc : V → Option B) (k : Key) (ps : List (V × PyScore))
    (cs : List (ZCmd B)) (h : runMapping enc k ps = .ok cs) :
    (∀ c ∈ cs, isIncr c = true) ∧ cs.length = ps.length := by
  induction ps generalizing cs with
  | nil =>
    cases h
    exact ⟨fun c hc => absurd hc (List.not_mem_nil c), rfl⟩
  | cons p rest ih =>
    cases he : enc p.1 with
    | none => simp only [runMapping, he] at h; cases h
    | some e =>
      simp only [runMapping, he] at h
      by_cases hr : p.2.isReal = true
      · rw [if_pos hr] at h
        cases hm : runMapping enc k rest with
        | error u => simp only [hm] at h; cases h
        | ok cs2 =>
          simp only [hm] at h
          cases h
          obtain ⟨h1, h2⟩ := ih cs2 hm
          refine ⟨?_, by simp [h2]⟩
          intro c hc
          rcases List.mem_cons.mp hc with hc1 | hc2
          · rw [hc1]; rfl
          · exact h1 c hc2
      · rw [if_neg hr] at h
        cases h

lemma runIter_ok (enc : V → Option B) (k : Key) (xs : List V)
    (cs : List (ZCmd B)) (h : runIter enc k xs = .ok cs) :
    (∀ c ∈ cs, isIncr c = true) ∧ cs.length = xs.length := by
  induction xs generalizing cs with
  | nil =>
    cases h
    exact ⟨fun c hc => absurd hc (List.not_mem_nil c), rfl⟩
  | cons v rest ih =>
    cases he : enc v with
    | none => simp only [runIter, he] at h; cases h
    | some e =>
      simp only [runIter, he] at h
      cases hm : runIter enc k rest with
      | error u => simp only [hm] at h; cases h
      | ok cs2 =>
        simp only [hm] at h
        cases h
        obtain ⟨h1, h2⟩ := ih cs2 hm
        refine ⟨?_, by simp [h2]⟩
        intro c hc
        rcases List.mem_cons.mp hc with hc1 | hc2
        · rw [hc1]; rfl
        · exact h1 c hc2

lemma runKeywords_ok (enc : V → Option B) (k : Key) (kw : List (V × PyScore))
    (cs : List (ZCmd B)) (h : runKeywords enc k kw = .ok cs) :
    (∀ c ∈ cs, isIncr c = true) ∧ cs.length = kw.length := by
  induction kw generalizing cs with
  | nil =>
    cases h
    exact ⟨fun c hc => absurd hc (List.not_mem_nil c), rfl⟩
  | cons p rest ih =>
    rw [runKeywords] at h
    by_cases hi : p.2.isIntegral = true
    · rw [if_pos hi] at h
      cases he : enc p.1 with
      | none => simp only [he] at h; cases h
      | some e =>
        simp only [he] at h
        cases hm : runKeywords enc k rest with
        | error u => simp only [hm] at h; cases h
        | ok cs2 =>
          simp only [hm] at h
          cases h
          obtain ⟨h1, h2⟩ := ih cs2 hm
          refine ⟨?_, by simp [h2]⟩
          intro c hc
          rcases List.mem_cons.mp hc with hc1 | hc2
          · rw [hc1]; rfl
          · exact h1 c hc2
    · rw [if_neg hi] at h
      cases h

lemma runSets_ok (enc : V → Option B) (k : Key) (sets : List (ZOperand V))
    (p : List (ZCmd B) × List Key) (h : runSets enc k sets = .ok p) :
    (∀ c ∈ p.1, isIncr c = true) ∧ p.1.length = elemCount sets ∧
      p.2 = onlineKeysOf sets := by
  induction sets generalizing p with
  | nil =>
    cases h
    exact ⟨fun c hc => absurd hc (List.not_mem_nil c), rfl, rfl⟩
  | cons op rest ih =>
    cases op with
    | sorted w =>
      cases hr : runSets enc k rest with
      | error u => simp only [runSets, hr] at h; cases h
      | ok q =>
        simp only [runSets, hr] at h
        cases h
        obtain ⟨h1, h2, h3⟩ := ih q hr
        exact ⟨h1, h2, by rw [onlineKeysOf, h3]⟩
    | mapping ps =>
      cases hm : runMapping enc k ps with
      | error u => simp only [runSets, hm] at h; cases h
      | ok cs =>
        simp only [runSets, hm] at h
        cases hr : runSets enc k rest with
        | error u => simp only [hr] at h; cases h
        | ok q =>
          simp only [hr] at h
          cases h
          obtain ⟨m1, m2⟩ := runMapping_ok enc k ps cs hm
          obtain ⟨h1, h2, h3⟩ := ih q hr
          refine ⟨?_, ?_, by rw [onlineKeysOf, h3]⟩
          · intro c hc
            rcases List.mem_append.mp hc with hc1 | hc2
            · exact m1 c hc1
            · exact h1 c hc2
          · rw [List.length_append, m2, h2, elemCount]
    | iter xs =>
      cases hm : runIter enc k xs with
      | error u => simp only [runSets, hm] at h; cases h
      | ok cs =>
        simp only [runSets, hm] at h
        cases hr : runSets enc k rest with
        | error u => simp only [hr] at h; cases h
        | ok q =>
          simp only [hr] at h
          cases h
          obtain ⟨m1, m2⟩ := runIter_ok enc k xs cs hm
          obtain ⟨h1, h2, h3⟩ := ih q hr
          refine ⟨?_, ?_, by rw [onlineKeysOf, h3]⟩
          · intro c hc
            rcases List.mem_append.mp hc with hc1 | hc2
            · exact m1 c hc1
            · exact h1 c hc2
          · rw [List.length_append, m2, h2, elemCount]

lemma SortedSet_update_ok (C : CodecFam V B) (A : ZView) (sets : List (ZOperand V))
    (kw : List (V × PyScore)) (t : ZTxn B)
    (h : SortedSet_update C A sets kw = .ok t) :
    ∃ p kcs, runSets (C.encode A.vt) A.key sets = .ok p ∧
      runKeywords (C.encode A.vt) A.key kw = .ok kcs ∧
      t = ⟨[A.key], p.1 ++ kcs ++
        (if p.2.isEmpty then []
         else [ZCmd.zunionstore A.key (p.2.length + 1) (A.key :: p.2)])⟩ := by
  cases hs : runSets (C.encode A.vt) A.key sets with
  | error u => simp only [SortedSet_update, hs] at h; cases h
  | ok p =>
    simp only [SortedSet_update, hs] at h
    cases hk : runKeywords (C.encode A.vt) A.key kw with
    | error u => simp only [hk] at h; cases h
    | ok kcs =>
      simp only [hk] at h
      cases h
      exact ⟨p, kcs, rfl, rfl, rfl⟩

lemma key_mem_onlineKeysOf (w : ZView) (sets : List (ZOperand V))
    (h : ZOperand.sorted w ∈ sets) : w.key ∈ onlineKeysOf sets := by
  induction sets with
  | nil => cases h
  | cons op rest ih =>
    rcases List.mem_cons.mp h with h1 | h2
    · subst h1
      exact List.mem_cons_self _ _
    · cases op with
      | sorted w2 => exact List.mem_cons_of_mem _ (ih h2)
      | mapping ps => exact ih h2
      | iter xs => exact ih h2

lemma incrCount_append (a b : List (ZCmd B)) :
    incrCount (a ++ b) = incrCount a + incrCount b := by
  simp [incrCount, List.filter_append]

lemma incrCount_of_all (a : List (ZCmd B)) (h : ∀ c ∈ a, isIncr c = true) :
    incrCount a = a.length := by
  rw [incrCount, List.filter_eq_self.mpr ?_]
  intro c hc
  exact h c hc

/-- C4 counterexample: for an update call with one same-session
SortedSet operand, the only key registered with the coordinator is the
key of the view itself; the key of the operand is absent even though it
is passed to the ZUNIONSTORE. -/
theorem update_registration_counterexample :
    SortedSet_update natCodec Z0 setsW2 ([] : List (Nat × PyScore)) = Except.ok txn10 ∧
    W2.sess = Z0.sess ∧ W2.key ∉ txn10.registered := by
  refine ⟨by decide, by decide, by decide⟩

/-- C4 amended: every command SortedSet.update buffers sits inside the
one transaction block — each is a per-element ZINCRBY or the single
final ZUNIONSTORE over self.key and the operand keys — but the only
key registered as watched or manipulative with the coordinator is the
key of the view itself, never the operand keys. -/
theorem update_registers_only_own_key (C : CodecFam V B) (A : ZView)
    (sets : List (ZOperand V)) (kw : List (V × PyScore)) (t : ZTxn B)
    (hok : SortedSet_update C A sets kw = .ok t) :
    t.registered = [A.key] ∧
    (∀ c ∈ t.cmds, isIncr c = true ∨
       c = ZCmd.zunionstore A.key ((onlineKeysOf sets).length + 1)
         (A.key :: onlineKeysOf sets)) ∧
    (onlineKeysOf sets = [] → ∀ c ∈ t.cmds, isIncr c = true) := by
  obtain ⟨p, kcs, hs, hk, ht⟩ := SortedSet_update_ok C A sets kw t hok
  obtain ⟨hincr, hlen, hkeys⟩ := runSets_ok (C.encode A.vt) A.key sets p hs
  obtain ⟨hkincr, hklen⟩ := runKeywords_ok (C.encode A.vt) A.key kw kcs hk
  subst ht
  refine ⟨rfl, ?_, ?_⟩
  · intro c hc
    have hc2 : c ∈ (p.1 ++ kcs) ++ (if p.2.isEmpty then [] else
        [ZCmd.zunionstore A.key (p.2.length + 1) (A.key :: p.2)]) := hc
    rcases List.mem_append.mp hc2 with h12 | htail
    · rcases List.mem_append.mp h12 with h1 | h1
      · exact Or.inl (hincr c h1)
      · exact Or.inl (hkincr c h1)
    · by_cases hemp : p.2.isEmpty = true
      · rw [if_pos hemp] at htail
        exact absurd htail (List.not_mem_nil c)
      · rw [if_neg hemp] at htail
        rcases List.mem_cons.mp htail with h1 | h1
        · rw [hkeys] at h1
          exact Or.inr h1
        · exact absurd h1 (List.not_mem_nil c)
  · intro hnil c hc
    have hpe : p.2.isEmpty = true := by rw [hkeys, hnil]; rfl
    have hc2 : c ∈ (p.1 ++ kcs) ++ (if p.2.isEmpty then [] else
        [ZCmd.zunionstore A.key (p.2.length + 1) (A.key :: p.2)]) := hc
    rw [if_pos hpe, List.append_nil] at hc2
    rcases List.mem_append.mp hc2 with h1 | h1
    · exact hincr c h1
    · exact hkincr c h1

/-- Witness for the amended C4 at a concrete same-session operand. -/
theorem update_registers_only_own_key_witness :
    txn10.registered = [Z0.key] :=
  (update_registers_only_own_key natCodec Z0 setsW2 ([] : List (Nat × PyScore)) txn10
    (by decide)).1

/-- C10: an operand of SortedSet.update is treated as a remote
union-store operand purely because it is a SortedSet instance: with an
operand view bound to a different session, its key still appears in the
single ZUNIONSTORE issued on the session of self, it contributes no
per-element increment commands, and no session check intervenes. -/
theorem update_unionstore_ignores_session (C : CodecFam V B) (A w : ZView)
    (sets : List (ZOperand V)) (kw : List (V × PyScore)) (t : ZTxn B)
    (hw : ZOperand.sorted w ∈ sets) (hsess : ¬ w.sess = A.sess)
    (hok : SortedSet_update C A sets kw = .ok t) :
    ZCmd.zunionstore A.key ((onlineKeysOf sets).length + 1) (A.key :: onlineKeysOf sets)
        ∈ t.cmds ∧
    w.key ∈ onlineKeysOf sets ∧
    incrCount t.cmds = elemCount sets + kw.length := by
  obtain ⟨p, kcs, hs, hk, ht⟩ := SortedSet_update_ok C A sets kw t hok
  obtain ⟨hincr, hlen, hkeys⟩ := runSets_ok (C.encode A.vt) A.key sets p hs
  obtain ⟨hkincr, hklen⟩ := runKeywords_ok (C.encode A.vt) A.key kw kcs hk
  subst ht
  have hkm : w.key ∈ onlineKeysOf sets := key_mem_onlineKeysOf w sets hw
  have hpne : (onlineKeysOf sets).isEmpty = false := by
    cases hoks : onlineKeysOf sets with
    | nil => rw [hoks] at hkm; exact absurd hkm (List.not_mem_nil _)
    | cons a l => rfl
  have hifneg : ¬ (p.2.isEmpty = true) := by
    rw [hkeys, hpne]
    exact Bool.false_ne_true
  constructor
  · show ZCmd.zunionstore A.key ((onlineKeysOf sets).length + 1) (A.key :: onlineKeysOf sets)
        ∈ (p.1 ++ kcs) ++ (if p.2.isEmpty then [] else
          [ZCmd.zunionstore A.key (p.2.length + 1) (A.key :: p.2)])
    rw [if_neg hifneg, hkeys]
    exact List.mem_append.mpr (Or.inr (List.mem_cons_self _ _))
  refine ⟨hkm, ?_⟩
  show incrCount ((p.1 ++ kcs) ++ (if p.2.isEmpty then [] else
      [ZCmd.zunionstore A.key (p.2.length + 1) (A.key :: p.2)])) =
    elemCount sets + kw.length
  rw [if_neg hifneg, incrCount_append, incrCount_append,
    incrCount_of_all p.1 hincr, incrCount_of_all kcs hkincr, hlen, hklen]
  have hz : incrCount ([ZCmd.zunionstore A.key (p.2.length + 1) (A.key :: p.2)] :
      List (ZCmd B)) = 0 := by
    simp [incrCount, isIncr]
  rw [hz]
  omega

/-- Witness for C10: a SortedSet operand on session 1 merged into a
view on session 0 still lands in the ZUNIONSTORE key list. -/
theorem update_unionstore_ignores_session_witness :
    ZCmd.zunionstore Z0.key ((onlineKeysOf sets10).length + 1) (Z0.key :: onlineKeysOf sets10)
        ∈ txn10.cmds :=
  (update_unionstore_ignores_session natCodec Z0 W1 sets10 ([] : List (Nat × PyScore)) txn10
    (List.mem_cons_self _ _) (by decide) (by decide)).1

lemma runMapping_err (enc : V → Option B) (k : Key) (ps : List (V × PyScore))
    (henc : ∀ v, (enc v).isSome = true) :
    isErr (runMapping enc k ps) = ps.any fun p => !p.2.isReal := by
  induction ps with
  | nil => rfl
  | cons p rest ih =>
    cases he : enc p.1 with
    | none =>
      have hv := henc p.1
      rw [he] at hv
      cases hv
    | some e =>
      by_cases hr : p.2.isReal = true
      · have hnr : (!p.2.isReal) = false := by rw [hr]; rfl
        rw [List.any_cons, hnr, Bool.false_or]
        cases hm : runMapping enc k rest with
        | error u =>
          rw [hm] at ih
          simp only [isErr] at ih
          simp only [runMapping, he, if_pos hr, hm, isErr]
          exact ih
        | ok cs =>
          rw [hm] at ih
          simp only [isErr] at ih
          simp only [runMapping, he, if_pos hr, hm, isErr]
          exact ih
      · have hnr : (!p.2.isReal) = true := by
          cases hb : p.2.isReal
          · rfl
          · exact absurd hb hr
        rw [List.any_cons, hnr, Bool.true_or]
        simp only [runMapping, he, if_neg hr, isErr]

lemma runIter_no_err (enc : V → Option B) (k : Key) (xs : List V)
    (henc : ∀ v, (enc v).isSome = true) :
    isErr (runIter enc k xs) = false := by
  induction xs with
  | nil => rfl
  | cons v rest ih =>
    cases he : enc v with
    | none =>
      have hv := henc v
      rw [he] at hv
      cases hv
    | some e =>
      cases hm : runIter enc k rest with
      | error u =>
        rw [hm] at ih
        simp only [isErr] at ih
        cases ih
      | ok cs =>
        simp only [runIter, he, hm, isErr]

lemma runKeywords_err (enc : V → Option B) (k : Key) (kw : List (V × PyScore))
    (henc : ∀ v, (enc v).isSome = true) :
    isErr (runKeywords enc k kw) = kwBadScore kw := by
  induction kw with
  | nil => rfl
  | cons p rest ih =>
    rw [kwBadScore] at ih ⊢
    rw [List.any_cons]
    by_cases hi : p.2.isIntegral = true
    · have hni : (!p.2.isIntegral) = false := by rw [hi]; rfl
      rw [hni, Bool.false_or]
      cases he : enc p.1 with
      | none =>
        have hv := henc p.1
        rw [he] at hv
        cases hv
      | some e =>
        cases hm : runKeywords enc k rest with
        | error u =>
          rw [hm] at ih
          simp only [isErr] at ih
          simp only [runKeywords, if_pos hi, he, hm, isErr]
          exact ih
        | ok cs =>
          rw [hm] at ih
          simp only [isErr] at ih
          simp only [runKeywords, if_pos hi, he, hm, isErr]
          exact ih
    · have hni : (!p.2.isIntegral) = true := by
        cases hb : p.2.isIntegral
        · rfl
        · exact absurd hb hi
      rw [hni, Bool.true_or]
      simp only [runKeywords, if_neg hi, isErr]

lemma runSets_err (enc : V → Option B) (k : Key) (sets : List (ZOperand V))
    (henc : ∀ v, (enc v).isSome = true) :
    isErr (runSets enc k sets) = opsBadScore sets := by
  induction sets with
  | nil => rfl
  | cons op rest ih =>
    cases op with
    | sorted w =>
      rw [opsBadScore]
      cases hr : runSets enc k rest with
      | error u =>
        rw [hr] at ih
        simp only [isErr] at ih
        simp only [runSets, hr, isErr]
        exact ih
      | ok q =>
        rw [hr] at ih
        simp only [isErr] at ih
        simp only [runSets, hr, isErr]
        exact ih
    | mapping ps =>
      rw [opsBadScore]
      have hmm := runMapping_err enc k ps henc
      cases hm : runMapping enc k ps with
      | error u =>
        rw [hm] at hmm
        simp only [isErr] at hmm
        simp only [runSets, hm, isErr]
        rw [← hmm, Bool.true_or]
      | ok cs =>
        rw [hm] at hmm
        simp only [isErr] at hmm
        rw [← hmm, Bool.false_or]
        cases hr : runSets enc k rest with
        | error u =>
          rw [hr] at ih
          simp only [isErr] at ih
          simp only [runSets, hm, hr, isErr]
          exact ih
        | ok q =>
          rw [hr] at ih
          simp only [isErr] at ih
          simp only [runSets, hm, hr, isErr]
          exact ih
    | iter xs =>
      rw [opsBadScore]
      have hit := runIter_no_err enc k xs henc
      cases hm : runIter enc k xs with
      | error u =>
        rw [hm] at hit
        simp only [isErr] at hit
        cases hit
      | ok cs =>
        cases hr : runSets enc k rest with
        | error u =>
          rw [hr] at ih
          simp only [isErr] at ih
          simp only [runSets, hm, hr, isErr]
          exact ih
        | ok q =>
          rw [hr] at ih
          simp only [isErr] at ih
          simp only [runSets, hm, hr, isErr]
          exact ih

/-- C7 counterexample: a keyword score that is a non-integer float is a
numbers.Real, yet SortedSet.update rejects it with a type error
because the keywords loop requires a numbers.Integral score. -/
theorem update_float_keyword_rejected :
    isErr (SortedSet_update natCodec Z0 ([] : List (ZOperand Nat))
      [(7, PyScore.float (3 / 2))]) = true ∧
    (PyScore.float (3 / 2)).isReal = true := by
  refine ⟨by decide, by decide⟩

/-- C7 amended: with a codec that encodes every supplied element,
SortedSet.update fails with a type error exactly when some mapping
operand supplies a score that is not a numbers.Real or some keyword
supplies a score that is not a numbers.Integral; in particular a
non-integer float keyword score is rejected even though it is
numeric. -/
theorem update_type_error_iff (C : CodecFam V B) (A : ZView)
    (sets : List (ZOperand V)) (kw : List (V × PyScore))
    (henc : ∀ v : V, (C.encode A.vt v).isSome = true) :
    isErr (SortedSet_update C A sets kw) = (opsBadScore sets || kwBadScore kw) := by
  have h1 := runSets_err (C.encode A.vt) A.key sets henc
  have h2 := runKeywords_err (C.encode A.vt) A.key kw henc
  cases hs : runSets (C.encode A.vt) A.key sets with
  | error u =>
    rw [hs] at h1
    simp only [isErr] at h1
    simp only [SortedSet_update, hs, isErr]
    rw [← h1, Bool.true_or]
  | ok p =>
    rw [hs] at h1
    simp only [isErr] at h1
    rw [← h1, Bool.false_or]
    cases hk : runKeywords (C.encode A.vt) A.key kw with
    | error u =>
      rw [hk] at h2
      simp only [isErr] at h2
      simp only [SortedSet_update, hs, hk, isErr]
      exact h2
    | ok kcs =>
      rw [hk] at h2
      simp only [isErr] at h2
      simp only [SortedSet_update, hs, hk, isErr]
      exact h2

/-- Witness for the amended C7: a non-numeric mapping score makes the
call fail, matching the predicate. -/
theorem update_type_error_iff_witness :
    isErr (SortedSet_update natCodec Z0 [ZOperand.mapping [(1, PyScore.nonnum)]]
        ([] : List (Nat × PyScore))) =
      (opsBadScore [ZOperand.mapping [(1, PyScore.nonnum)]] ||
        kwBadScore ([] : List (Nat × PyScore))) :=
  update_type_error_iff natCodec Z0 [ZOperand.mapping [(1, PyScore.nonnum)]]
    ([] : List (Nat × PyScore)) (fun v => rfl)

/-- C9: starting from a remote score map holding the encodings of a at
score 2, b at score 3 and nothing for c, the call
update({a: 1, c: 4}) buffers exactly the two ZINCRBY commands and the
committed transaction leaves a at score 3, b untouched at score 3, c
created at score 4, and every other element unchanged. -/
theorem weighted_update_additivity (C : CodecFam V B) (A : ZView) (a c : V)
    (ea eb ec : B) (zst : ZStore B)
    (hea : C.encode A.vt a = some ea) (hec : C.encode A.vt c = some ec)
    (hae : ¬ ea = ec) (hba : ¬ eb = ea) (hbc : ¬ eb = ec)
    (h2 : zst A.sess A.key ea = some 2) (h3 : zst A.sess A.key eb = some 3)
    (hc0 : zst A.sess A.key ec = none) :
    SortedSet_update C A [ZOperand.mapping [(a, PyScore.int 1), (c, PyScore.int 4)]] [] =
      Except.ok ⟨[A.key], [ZCmd.zincrby A.key ea 1, ZCmd.zincrby A.key ec 4]⟩ ∧
    applyTxn A.sess zst ⟨[A.key], [ZCmd.zincrby A.key ea 1, ZCmd.zincrby A.key ec 4]⟩
        A.sess A.key ea = some 3 ∧
    applyTxn A.sess zst ⟨[A.key], [ZCmd.zincrby A.key ea 1, ZCmd.zincrby A.key ec 4]⟩
        A.sess A.key eb = some 3 ∧
    applyTxn A.sess zst ⟨[A.key], [ZCmd.zincrby A.key ea 1, ZCmd.zincrby A.key ec 4]⟩
        A.sess A.key ec = some 4 ∧
    (∀ e : B, ¬ e = ea → ¬ e = ec →
       applyTxn A.sess zst ⟨[A.key], [ZCmd.zincrby A.key ea 1, ZCmd.zincrby A.key ec 4]⟩
         A.sess A.key e = zst A.sess A.key e) := by
  refine ⟨?_, ?_, ?_, ?_, ?_⟩
  · simp only [SortedSet_update, runSets, runMapping, runKeywords, hea, hec,
      PyScore.isReal, PyScore.val, if_true, List.append_nil, List.isEmpty_nil]
    norm_num
  · simp only [applyTxn, List.foldl_cons, List.foldl_nil, applyZCmd]
    rw [if_neg (fun hcon => hae hcon.2.2), if_pos (by simp), h2]
    norm_num
  · simp only [applyTxn, List.foldl_cons, List.foldl_nil, applyZCmd]
    rw [if_neg (fun hcon => hbc hcon.2.2), if_neg (fun hcon => hba hcon.2.2)]
    exact h3
  · simp only [applyTxn, List.foldl_cons, List.foldl_nil, applyZCmd]
    rw [if_pos (by simp), if_neg (fun hcon => hae hcon.2.2.symm), hc0]
    norm_num
  · intro e hne1 hne2
    simp only [applyTxn, List.foldl_cons, List.foldl_nil, applyZCmd]
    rw [if_neg (fun hcon => hne2 hcon.2.2), if_neg (fun hcon => hne1 hcon.2.2)]

/-- Witness for C9 at a concrete store holding scores 2 and 3 under the
encodings 10 and 11. -/
theorem weighted_update_additivity_witness :
    SortedSet_update natCodec Z0 [ZOperand.mapping [(10, PyScore.int 1), (12, PyScore.int 4)]]
        [] =
      Except.ok ⟨[Z0.key], [ZCmd.zincrby Z0.key 10 1, ZCmd.zincrby Z0.key 12 4]⟩ ∧
    applyTxn Z0.sess zstAB ⟨[Z0.key], [ZCmd.zincrby Z0.key 10 1, ZCmd.zincrby Z0.key 12 4]⟩
        Z0.sess Z0.key 10 = some 3 ∧
    applyTxn Z0.sess zstAB ⟨[Z0.key], [ZCmd.zincrby Z0.key 10 1, ZCmd.zincrby Z0.key 12 4]⟩
        Z0.sess Z0.key 11 = some 3 ∧
    applyTxn Z0.sess zstAB ⟨[Z0.key], [ZCmd.zincrby Z0.key 10 1, ZCmd.zincrby Z0.key 12 4]⟩
        Z0.sess Z0.key 12 = some 4 :=
  have h := weighted_update_additivity natCodec Z0 10 12 10 11 12 zstAB rfl rfl
    (by decide) (by decide) (by decide) (by decide) (by decide) (by decide)
  ⟨h.1, h.2.1, h.2.2.1, h.2.2.2.1⟩

end SortedSetTheorems

end Sider
